import Mathlib

/-!
# Black-Scholes tools: a shallow embedding of `src/main.c`

The C program prices European options with the Black-Scholes formula, using an
Abramowitz–Stegun approximation of the normal CDF and a volatility estimated from a
file of historical prices.

Modelling conventions.

* A `double` is an exact real number; rounding and overflow are not modelled.
* An operation that leaves the reals (division by zero, `log` of a non-positive number,
  `sqrt` of a negative number) yields `Fault.nonFinite`: in C the result is `NaN` or `±inf`
  and the program carries on; the model assigns no value from that point on.
* Arrays are fixed-size, their cells start uninitialised, and every access is checked.
* What a function writes to `stdout`/`stderr` is a list of `Event`s (prompts and the
  wording of the Greeks report are left out).
* The price file is the list of its leading parseable numbers (`none`: it cannot be opened).
* Statements meant of the program are kept to what survives rounding (non-strict bounds,
  tolerances, gaps of `1e-9`); where a property fails only through rounding, the failing
  input is recorded with the exact-arithmetic fact that puts it below double resolution.
-/

namespace BlackScholes

/-! ## Faults, arrays, output events -/

/-- Ways in which a run leaves the model. -/
inductive Fault where
  /-- Double that is not a finite real (`NaN`, `±inf`) -/
  | nonFinite
  /-- Array index outside the declared size -/
  | outOfBounds
  /-- Read of an array cell that was never written -/
  | uninitialised
  deriving DecidableEq, Repr

/-- A C array of a declared size; `cell i = none` while cell `i` is uninitialised. -/
structure Arr (α : Type) where
  size : Nat
  cell : Nat → Option α

/-- Declaration `T a[size];` of a local array: nothing is initialised. -/
def Arr.alloc {α : Type} (size : Nat) : Arr α := ⟨size, fun _ => none⟩

/-- Checked read `a[i]`. -/
def Arr.read {α : Type} (a : Arr α) (i : Nat) : Except Fault α :=
  if i < a.size then
    match a.cell i with
    | some v => .ok v
    | none => .error .uninitialised
  else .error .outOfBounds

/-- Checked write `a[i] = v`. -/
def Arr.write {α : Type} (a : Arr α) (i : Nat) (v : α) : Except Fault (Arr α) :=
  if i < a.size then .ok ⟨a.size, Function.update a.cell i (some v)⟩
  else .error .outOfBounds

/-- The eight values printed by `greekAnalysis`. -/
structure Greeks where
  deltaCall : ℝ
  deltaPut : ℝ
  gamma : ℝ
  thetaCall : ℝ
  thetaPut : ℝ
  vega : ℝ
  rhoCall : ℝ
  rhoPut : ℝ

/-- Lines written by the program that carry information. -/
inductive Event where
  /-- Line written by `perror("Error opening file")` -/
  | errorOpeningFile
  /-- Line written by `fprintf(stderr, "Error: At least 2 prices required.\n")` -/
  | atLeast2PricesRequired
  /-- Line written by `printf("Failed to calculate volatility.\n")` -/
  | failedToCalculateVolatility
  /-- Line written by `printf("Invalid option choice.\n")` -/
  | invalidOptionChoice
  /-- Report of `greekAnalysis`: its eight values -/
  | greeks (g : Greeks)
  /-- Line written by `printf("Option Price: %.4f\n", optionPrice)` -/
  | optionPrice (v : ℝ)

/-- Result of a C function returning `double`: the value and what it printed. -/
structure Ret where
  val : Except Fault ℝ
  out : List Event

/-! ## The read loop (lines 116–120) -/

/-- Loop `while (fscanf(file, "%lf", &prices[n]) == 1 && n < 999) n++;`.
The first argument is what is left of the file: on `[]` the `fscanf` fails and the loop
ends; otherwise the number is stored in `prices[n]` before `n < 999` is tested. -/
def readLoop {α : Type} : List α → Arr α → Nat → Except Fault (Arr α × Nat)
  | [], prices, n => .ok (prices, n)
  | v :: rest, prices, n =>
    match prices.write n v with
    | .error f => .error f
    | .ok prices1 => if n < 999 then readLoop rest prices1 (n + 1) else .ok (prices1, n)

noncomputable section

/-! ## Checked arithmetic -/

/-- Division `a / b` of doubles; non-finite when `b` is zero. -/
def fdiv (a b : ℝ) : Except Fault ℝ :=
  if b = 0 then .error .nonFinite else .ok (a / b)

/-- C `log(a)`; non-finite when `a ≤ 0`. -/
def flog (a : ℝ) : Except Fault ℝ :=
  if 0 < a then .ok (Real.log a) else .error .nonFinite

/-- C `sqrt(a)`; `NaN` when `a < 0`. -/
def fsqrt (a : ℝ) : Except Fault ℝ :=
  if 0 ≤ a then .ok (Real.sqrt a) else .error .nonFinite

/-! ## Normal distribution (lines 5, 65–85) -/

/-- Macro `#define pi (355.0 / 113.0)`. -/
def pi : ℝ := 355.0 / 113.0

/-- Function `nPrime` (standard normal PDF). The divisor `sqrt(2.0 * pi)` is a non-zero
constant, so the division is total. -/
def nPrime (x : ℝ) : ℝ :=
  (1.0 / Real.sqrt (2.0 * pi)) * Real.exp (-0.5 * x * x)

/-- Function `cdfApprox` (Abramowitz & Stegun). The divisor `1.0 + p * fabs(x)` is at
least 1 (see `cdfApprox_divisor_pos`), so the division is total. -/
def cdfApprox (x : ℝ) : ℝ :=
  let p : ℝ := 0.2316419
  let a1 : ℝ := 0.319381530
  let a2 : ℝ := -0.356563782
  let a3 : ℝ := 1.781477937
  let a4 : ℝ := -1.821255978
  let a5 : ℝ := 1.330274429
  let k : ℝ := 1.0 / (1.0 + p * |x|)
  let k_sum : ℝ := a1 * k + a2 * k ^ 2 + a3 * k ^ 3 + a4 * k ^ 4 + a5 * k ^ 5
  let cnd : ℝ := 1.0 - nPrime x * k_sum
  if x < 0.0 then 1.0 - cnd else cnd

/-! ## Black-Scholes price (lines 90–104) -/

/-- Local `d1` of `optionCalculator` and `greekAnalysis` (lines 91 and 149, identical). -/
def d1 (stockPrice strikePrice interestRate timeToExpiration stockVolatility : ℝ) :
    Except Fault ℝ := do
  let q ← fdiv stockPrice strikePrice
  let l ← flog q
  let s ← fsqrt timeToExpiration
  fdiv (l + (interestRate + 0.5 * stockVolatility ^ 2) * timeToExpiration)
    (stockVolatility * s)

/-- Local `d2` of `optionCalculator` and `greekAnalysis` (lines 92 and 150, identical). -/
def d2 (stockPrice strikePrice interestRate timeToExpiration stockVolatility : ℝ) :
    Except Fault ℝ := do
  let a ← d1 stockPrice strikePrice interestRate timeToExpiration stockVolatility
  let s ← fsqrt timeToExpiration
  pure (a - stockVolatility * s)

/-- Function `optionCalculator`. `d1` and `d2` are computed first but only the call and
put branches use them; the last branch prints and returns `-1`. -/
def optionCalculator (stockPrice strikePrice interestRate timeToExpiration
    stockVolatility : ℝ) (optChoice : Int) : Ret :=
  let d1v := d1 stockPrice strikePrice interestRate timeToExpiration stockVolatility
  let d2v := d2 stockPrice strikePrice interestRate timeToExpiration stockVolatility
  if optChoice = 1 then
    ⟨do
      let a ← d1v
      let b ← d2v
      pure (stockPrice * cdfApprox a
        - strikePrice * Real.exp (-interestRate * timeToExpiration) * cdfApprox b), []⟩
  else if optChoice = 2 then
    ⟨do
      let a ← d1v
      let b ← d2v
      pure (strikePrice * Real.exp (-interestRate * timeToExpiration) * cdfApprox (-b)
        - stockPrice * cdfApprox (-a)), []⟩
  else
    ⟨.ok (-1), [.invalidOptionChoice]⟩

/-! ## Historical volatility (lines 109–143) -/

/-- Loop of lines 130–133: `for (int i = 1; i < n; i++)`, filling `logReturns` and
accumulating `sum`. -/
def logReturnLoop (prices : Arr ℝ) (n : Nat) (i : Nat) (logReturns : Arr ℝ) (sum : ℝ) :
    Except Fault (Arr ℝ × ℝ) :=
  if i < n then do
    let cur ← prices.read i
    let prev ← prices.read (i - 1)
    let q ← fdiv cur prev
    let l ← flog q
    let logReturns1 ← logReturns.write (i - 1) l
    let r ← logReturns1.read (i - 1)
    logReturnLoop prices n (i + 1) logReturns1 (sum + r)
  else pure (logReturns, sum)
termination_by n - i

/-- Loop of lines 136–138: `for (int i = 0; i < n - 1; i++)`, accumulating `variance`. -/
def varianceLoop (logReturns : Arr ℝ) (mean : ℝ) (n : Nat) (i : Nat) (variance : ℝ) :
    Except Fault ℝ :=
  if i < n - 1 then do
    let r ← logReturns.read i
    varianceLoop logReturns mean n (i + 1) (variance + (r - mean) ^ 2)
  else pure variance
termination_by n - 1 - i

/-- Function `calculateHistoricalVolatility`; the argument is the content of the file
(`none` when `fopen` fails). -/
def calculateHistoricalVolatility (file : Option (List ℝ)) : Ret :=
  match file with
  | none => ⟨.ok (-1.0), [.errorOpeningFile]⟩
  | some src =>
    match readLoop src (Arr.alloc 1000) 0 with
    | .error f => ⟨.error f, []⟩
    | .ok (prices, n) =>
      if n < 2 then ⟨.ok (-1.0), [.atLeast2PricesRequired]⟩
      else
        ⟨do
          let (logReturns, sum) ← logReturnLoop prices n 1 (Arr.alloc 999) 0.0
          let mean ← fdiv sum ((n - 1 : ℕ) : ℝ)
          let variance ← varianceLoop logReturns mean n 0 0.0
          let variance1 ← fdiv variance ((n - 2 : ℕ) : ℝ)
          let s ← fsqrt variance1
          pure (s * Real.sqrt 252.0), []⟩

/-! ## Greeks (lines 148–161) -/

/-- Function `greekAnalysis`: the eight values it prints. -/
def greekAnalysis (stockPrice strikePrice interestRate timeToExpiration
    stockVolatility : ℝ) : Except Fault Greeks := do
  let d1v ← d1 stockPrice strikePrice interestRate timeToExpiration stockVolatility
  let d2v ← d2 stockPrice strikePrice interestRate timeToExpiration stockVolatility
  let sq ← fsqrt timeToExpiration
  let deltaCall := cdfApprox d1v
  let deltaPut := deltaCall - 1.0
  let gamma ← fdiv (nPrime d1v) (stockPrice * stockVolatility * sq)
  let decay ← fdiv (stockPrice * nPrime d1v * stockVolatility) (2.0 * sq)
  let thetaCall := -decay
    - interestRate * strikePrice * Real.exp (-interestRate * timeToExpiration) * cdfApprox d2v
  let thetaPut := -decay
    + interestRate * strikePrice * Real.exp (-interestRate * timeToExpiration)
      * cdfApprox (-d2v)
  let vega := stockPrice * nPrime d1v * sq
  let rhoCall := strikePrice * timeToExpiration
    * Real.exp (-interestRate * timeToExpiration) * cdfApprox d2v
  let rhoPut := -strikePrice * timeToExpiration
    * Real.exp (-interestRate * timeToExpiration) * cdfApprox (-d2v)
  pure ⟨deltaCall, deltaPut, gamma, thetaCall, thetaPut, vega, rhoCall, rhoPut⟩

/-! ## Main program (lines 20–60) -/

/-- Function `main`, with the values read by `scanf` as arguments: exit status and
output. A non-finite volatility, Greek or price is outside the model. -/
def main (stockPrice strikePrice interestRate timeToExpiration : ℝ)
    (file : Option (List ℝ)) (analysisChoice optChoice : Int) :
    Except Fault (Int × List Event) := do
  let vol := calculateHistoricalVolatility file
  let stockVolatility ← vol.val
  if stockVolatility < 0 then
    pure (1, vol.out ++ [.failedToCalculateVolatility])
  else
    let report ←
      if analysisChoice = 1 then do
        let g ← greekAnalysis stockPrice strikePrice interestRate timeToExpiration
          stockVolatility
        pure [Event.greeks g]
      else pure []
    let price := optionCalculator stockPrice strikePrice interestRate timeToExpiration
      stockVolatility optChoice
    let optionPrice ← price.val
    if optionPrice ≥ 0 then
      pure (0, vol.out ++ report ++ price.out ++ [.optionPrice optionPrice])
    else
      pure (0, vol.out ++ report ++ price.out)

/-! ## Reference estimator, following the specification (§4.2) -/

/-- Log-return `r_i = ln(price[i] / price[i-1])`, for `i = 1..n-1`. -/
def specLogReturn (prices : List ℝ) (i : Nat) : ℝ :=
  Real.log (prices.getD i 0 / prices.getD (i - 1) 0)

/-- Arithmetic mean of the `n - 1` log-returns. -/
def specMean (prices : List ℝ) : ℝ :=
  (∑ i ∈ Finset.Icc 1 (prices.length - 1), specLogReturn prices i)
    / ((prices.length - 1 : ℕ) : ℝ)

/-- Sample variance `Σ (logReturn − mean)² / (n − 2)`. -/
def specVariance (prices : List ℝ) : ℝ :=
  (∑ i ∈ Finset.Icc 1 (prices.length - 1), (specLogReturn prices i - specMean prices) ^ 2)
    / ((prices.length : ℝ) - 2)

/-- Annualised volatility `sqrt(variance) × sqrt(252)`. -/
def specVolatility (prices : List ℝ) : ℝ :=
  Real.sqrt (specVariance prices) * Real.sqrt 252

end

/-! ## Facts about the loops of the estimator -/

theorem readLoop_spec {α : Type} (src : List α) :
    ∀ (a : Arr α) (n : Nat), a.size = 1000 → n ≤ 999 →
      ∃ a1, readLoop src a n = .ok (a1, min (n + src.length) 999) ∧ a1.size = 1000
        ∧ (∀ i, i < n → a1.cell i = a.cell i)
        ∧ (∀ i, n ≤ i → i < min (n + src.length) 999 → a1.cell i = src[i - n]?) := by
  induction src with
  | nil =>
    intro a n ha hn
    refine ⟨a, ?_, ha, fun _ _ => rfl, ?_⟩
    · simp only [readLoop, List.length_nil, Nat.add_zero, Nat.min_eq_left hn]
    · intro i h1 h2
      simp only [List.length_nil, Nat.add_zero, Nat.min_eq_left hn] at h2
      omega
  | cons v rest ih =>
    intro a n ha hn
    have hw : a.write n v = .ok ⟨a.size, Function.update a.cell n (some v)⟩ := by
      simp only [Arr.write, ha, if_pos (show n < 1000 by omega)]
    by_cases h : n < 999
    · obtain ⟨a1, e, hs, hlow, hhigh⟩ :=
        ih ⟨a.size, Function.update a.cell n (some v)⟩ (n + 1) ha (by omega)
      have hlen : n + 1 + rest.length = n + (v :: rest).length := by
        simp only [List.length_cons]; omega
      rw [hlen] at e hhigh
      refine ⟨a1, ?_, hs, ?_, ?_⟩
      · simp only [readLoop, hw, if_pos h, e]
      · intro i hi
        rw [hlow i (by omega)]
        exact Function.update_noteq (by omega) _ _
      · intro i h1 h2
        rcases Nat.eq_or_lt_of_le h1 with h3 | h3
        · subst h3
          rw [hlow n (by omega)]
          simp only [Function.update_same, Nat.sub_self, List.getElem?_cons_zero]
        · rw [hhigh i (by omega) h2]
          have : i - n = (i - (n + 1)) + 1 := by omega
          rw [this, List.getElem?_cons_succ]
    · have hn9 : n = 999 := by omega
      refine ⟨⟨a.size, Function.update a.cell n (some v)⟩, ?_, ha, ?_, ?_⟩
      · simp only [readLoop, hw, if_neg h]
        have : min (n + (v :: rest).length) 999 = n := by
          simp only [List.length_cons]; omega
        rw [this]
      · intro i hi
        exact Function.update_noteq (by omega) _ _
      · intro i h1 h2
        have : min (n + (v :: rest).length) 999 = n := by
          simp only [List.length_cons]; omega
        rw [this] at h2
        omega

theorem logReturnLoop_spec (P : Arr ℝ) (p : ℕ → ℝ) (n : ℕ) (hP : P.size = 1000)
    (hn : n ≤ 1000) (hc : ∀ i, i < n → P.cell i = some (p i))
    (hr : ∀ i, 1 ≤ i → i < n → p (i - 1) ≠ 0 ∧ 0 < p i / p (i - 1)) :
    ∀ (k i : ℕ) (L : Arr ℝ) (s : ℝ), n - i = k → 1 ≤ i → i ≤ n → L.size = 999 →
      ∃ L1, logReturnLoop P n i L s
          = .ok (L1, s + ∑ j ∈ Finset.Ico i n, Real.log (p j / p (j - 1)))
        ∧ L1.size = 999
        ∧ (∀ j, j + 1 < i → L1.cell j = L.cell j)
        ∧ (∀ j, i ≤ j + 1 → j + 1 < n → L1.cell j = some (Real.log (p (j + 1) / p j))) := by
  intro k
  induction k with
  | zero =>
    intro i L s hk h1 h2 hL
    have hin : i = n := by omega
    subst hin
    refine ⟨L, ?_, hL, fun _ _ => rfl, fun j h3 h4 => by omega⟩
    rw [logReturnLoop]
    simp only [lt_irrefl, if_false, Finset.Ico_self, Finset.sum_empty, add_zero, pure,
      Except.pure]
  | succ k ih =>
    intro i L s hk h1 h2 hL
    have hi : i < n := by omega
    obtain ⟨hne, hpos⟩ := hr i h1 hi
    have r1 : P.read i = .ok (p i) := by
      simp only [Arr.read, hP, if_pos (show i < 1000 by omega), hc i hi]
    have r2 : P.read (i - 1) = .ok (p (i - 1)) := by
      simp only [Arr.read, hP, if_pos (show i - 1 < 1000 by omega), hc (i - 1) (by omega)]
    have w : L.write (i - 1) (Real.log (p i / p (i - 1)))
        = .ok ⟨L.size, Function.update L.cell (i - 1)
            (some (Real.log (p i / p (i - 1))))⟩ := by
      simp only [Arr.write, hL, if_pos (show i - 1 < 999 by omega)]
    have r3 : (⟨L.size, Function.update L.cell (i - 1)
        (some (Real.log (p i / p (i - 1))))⟩ : Arr ℝ).read (i - 1)
        = .ok (Real.log (p i / p (i - 1))) := by
      simp only [Arr.read, hL, if_pos (show i - 1 < 999 by omega), Function.update_same]
    obtain ⟨L1, e, hs, hlow, hhigh⟩ :=
      ih (i + 1) ⟨L.size, Function.update L.cell (i - 1)
        (some (Real.log (p i / p (i - 1))))⟩ (s + Real.log (p i / p (i - 1)))
        (by omega) (by omega) (by omega) hL
    refine ⟨L1, ?_, hs, ?_, ?_⟩
    · rw [logReturnLoop]
      simp only [if_pos hi, r1, r2, fdiv, flog, if_neg hne, if_pos hpos, w, r3, bind,
        Except.bind, e]
      rw [Finset.sum_eq_sum_Ico_succ_bot hi, add_assoc]
    · intro j hj
      rw [hlow j (by omega)]
      exact Function.update_noteq (by omega) _ _
    · intro j h3 h4
      rcases Nat.eq_or_lt_of_le h3 with h5 | h5
      · have hj : j = i - 1 := by omega
        have hi1 : i - 1 + 1 = i := by omega
        rw [hlow j (by omega), hj, hi1]
        exact Function.update_same _ _ _
      · exact hhigh j (by omega) h4

theorem varianceLoop_spec (L : Arr ℝ) (r : ℕ → ℝ) (m : ℝ) (n : ℕ) (hL : L.size = 999)
    (hn : n ≤ 1000) (hc : ∀ j, j + 1 < n → L.cell j = some (r j)) :
    ∀ (k i : ℕ) (v : ℝ), n - 1 - i = k → i ≤ n - 1 →
      varianceLoop L m n i v = .ok (v + ∑ j ∈ Finset.Ico i (n - 1), (r j - m) ^ 2) := by
  intro k
  induction k with
  | zero =>
    intro i v hk hi
    have hin : i = n - 1 := by omega
    subst hin
    rw [varianceLoop]
    simp only [lt_irrefl, if_false, Finset.Ico_self, Finset.sum_empty, add_zero, pure,
      Except.pure]
  | succ k ih =>
    intro i v hk hi
    have hlt : i < n - 1 := by omega
    have r1 : L.read i = .ok (r i) := by
      simp only [Arr.read, hL, if_pos (show i < 999 by omega), hc i (by omega)]
    rw [varianceLoop]
    simp only [if_pos hlt, r1, bind, Except.bind]
    rw [ih (i + 1) _ (by omega) (by omega), Finset.sum_eq_sum_Ico_succ_bot hlt, add_assoc]

theorem cell_of_take (src : List ℝ) (i : ℕ) (hi : i < (src.take 999).length) :
    src[i]? = some ((src.take 999).getD i 0) := by
  have h1 : i < 999 := by
    rw [List.length_take] at hi; omega
  have h2 : i < src.length := by
    rw [List.length_take] at hi; omega
  rw [List.getD_eq_getElem?_getD, List.getElem?_take_of_lt h1, List.getElem?_eq_getElem h2]
  rfl

theorem readLoop_run (src : List ℝ) :
    ∃ P, readLoop src (Arr.alloc 1000) 0 = .ok (P, (src.take 999).length) ∧ P.size = 1000
      ∧ ∀ i, i < (src.take 999).length → P.cell i = some ((src.take 999).getD i 0) := by
  have hlen : min (0 + src.length) 999 = (src.take 999).length := by
    rw [List.length_take, Nat.zero_add, Nat.min_comm]
  obtain ⟨P, e, hP, -, hcell⟩ := readLoop_spec src (Arr.alloc 1000) 0 rfl (by omega)
  rw [hlen] at e hcell
  refine ⟨P, e, hP, fun i hi => ?_⟩
  rw [hcell i (Nat.zero_le i) hi, Nat.sub_zero]
  exact cell_of_take src i hi

theorem estimator_loops (src : List ℝ) (h2 : 2 ≤ (src.take 999).length)
    (hr : ∀ i, 1 ≤ i → i < (src.take 999).length →
      (src.take 999).getD (i - 1) 0 ≠ 0
        ∧ 0 < (src.take 999).getD i 0 / (src.take 999).getD (i - 1) 0) :
    ∃ P L, readLoop src (Arr.alloc 1000) 0 = .ok (P, (src.take 999).length)
      ∧ logReturnLoop P (src.take 999).length 1 (Arr.alloc 999) 0.0
          = .ok (L, ∑ i ∈ Finset.Icc 1 ((src.take 999).length - 1),
              specLogReturn (src.take 999) i)
      ∧ ∀ m, varianceLoop L m (src.take 999).length 0 0.0
          = .ok (∑ i ∈ Finset.Icc 1 ((src.take 999).length - 1),
              (specLogReturn (src.take 999) i - m) ^ 2) := by
  obtain ⟨P, e, hP, hc⟩ := readLoop_run src
  have hn : (src.take 999).length ≤ 1000 := by
    rw [List.length_take]; omega
  have z : (0.0 : ℝ) = 0 := by norm_num
  have hI : Finset.Icc 1 ((src.take 999).length - 1) = Finset.Ico 1 (src.take 999).length :=
    Nat.Icc_pred_right 1 (by omega)
  obtain ⟨L, e2, hL, -, hcL⟩ := logReturnLoop_spec P (fun i => (src.take 999).getD i 0)
    (src.take 999).length hP hn hc hr ((src.take 999).length - 1) 1 (Arr.alloc 999) 0.0
    rfl (le_refl 1) (by omega) rfl
  refine ⟨P, L, e, ?_, fun m => ?_⟩
  · rw [e2, z, zero_add, hI]
    rfl
  · rw [varianceLoop_spec L (fun j => specLogReturn (src.take 999) (j + 1)) m
      (src.take 999).length hL hn (fun j hj => hcL j (by omega) hj)
      ((src.take 999).length - 1) 0 0.0 (by omega) (Nat.zero_le _), z, zero_add, hI,
      Finset.sum_Ico_eq_sum_range, Finset.sum_Ico_eq_sum_range]
    simp only [Nat.sub_zero, Nat.zero_add, Nat.add_comm 1]

theorem calculateHistoricalVolatility_ok (src : List ℝ) (h3 : 3 ≤ (src.take 999).length)
    (hr : ∀ i, 1 ≤ i → i < (src.take 999).length →
      (src.take 999).getD (i - 1) 0 ≠ 0
        ∧ 0 < (src.take 999).getD i 0 / (src.take 999).getD (i - 1) 0) :
    calculateHistoricalVolatility (some src)
      = ⟨.ok (specVolatility (src.take 999)), []⟩ := by
  obtain ⟨P, L, e1, e2, e3⟩ := estimator_loops src (by omega) hr
  have hlt : ¬ (src.take 999).length < 2 := by omega
  have hd1 : (((src.take 999).length - 1 : ℕ) : ℝ) ≠ 0 :=
    Nat.cast_ne_zero.mpr (by omega)
  have hd2 : (((src.take 999).length - 2 : ℕ) : ℝ) ≠ 0 :=
    Nat.cast_ne_zero.mpr (by omega)
  have hcast : (((src.take 999).length - 2 : ℕ) : ℝ) = ((src.take 999).length : ℝ) - 2 := by
    rw [Nat.cast_sub (by omega)]
    norm_num
  have hv : 0 ≤ specVariance (src.take 999) := by
    unfold specVariance
    rw [← hcast]
    exact div_nonneg (Finset.sum_nonneg (fun _ _ => sq_nonneg _)) (Nat.cast_nonneg _)
  have hv2 : (∑ i ∈ Finset.Icc 1 ((src.take 999).length - 1),
      (specLogReturn (src.take 999) i
        - (∑ i ∈ Finset.Icc 1 ((src.take 999).length - 1), specLogReturn (src.take 999) i)
            / (((src.take 999).length - 1 : ℕ) : ℝ)) ^ 2)
      / (((src.take 999).length - 2 : ℕ) : ℝ) = specVariance (src.take 999) := by
    rw [hcast]
    rfl
  simp only [calculateHistoricalVolatility, e1, if_neg hlt, e2, bind, Except.bind, fdiv,
    if_neg hd1, e3, if_neg hd2, hv2, fsqrt, if_pos hv, pure, Except.pure]
  have h252 : (252.0 : ℝ) = 252 := by norm_num
  rw [h252]
  rfl

theorem calculateHistoricalVolatility_two (src : List ℝ) (h2 : (src.take 999).length = 2)
    (hr : ∀ i, 1 ≤ i → i < (src.take 999).length →
      (src.take 999).getD (i - 1) 0 ≠ 0
        ∧ 0 < (src.take 999).getD i 0 / (src.take 999).getD (i - 1) 0) :
    calculateHistoricalVolatility (some src) = ⟨.error .nonFinite, []⟩ := by
  obtain ⟨P, L, e1, e2, e3⟩ := estimator_loops src (by omega) hr
  have hlt : ¬ (src.take 999).length < 2 := by omega
  have hd1 : (((src.take 999).length - 1 : ℕ) : ℝ) ≠ 0 :=
    Nat.cast_ne_zero.mpr (by omega)
  have hd2 : (((src.take 999).length - 2 : ℕ) : ℝ) = 0 := by
    rw [h2]; norm_num
  simp only [calculateHistoricalVolatility, e1, if_neg hlt, e2, bind, Except.bind, fdiv,
    if_neg hd1, e3, if_pos hd2]

theorem logReturnLoop_fault (P L : Arr ℝ) (n : ℕ) (s p0 p1 : ℝ) (hn : 1 < n)
    (hP : P.size = 1000) (c0 : P.cell 0 = some p0) (c1 : P.cell 1 = some p1)
    (hbad : p0 = 0 ∨ ¬ 0 < p1 / p0) :
    logReturnLoop P n 1 L s = .error .nonFinite := by
  have r1 : P.read 1 = .ok p1 := by
    simp only [Arr.read, hP, if_pos (show 1 < 1000 by omega), c1]
  have r0 : P.read (1 - 1) = .ok p0 := by
    simp only [Arr.read, hP, Nat.sub_self, if_pos (show 0 < 1000 by omega), c0]
  rw [logReturnLoop]
  simp only [if_pos hn, r1, r0, bind, Except.bind, fdiv, flog]
  by_cases h0 : p0 = 0
  · simp only [if_pos h0]
  · have hq : ¬ 0 < p1 / p0 := by
      rcases hbad with h | h
      · exact absurd h h0
      · exact h
    simp only [if_neg h0, if_neg hq]

theorem calculateHistoricalVolatility_two_fault (p0 p1 : ℝ) (hbad : p0 = 0 ∨ ¬ 0 < p1 / p0) :
    calculateHistoricalVolatility (some [p0, p1]) = ⟨.error .nonFinite, []⟩ := by
  obtain ⟨P, e, hP, hc⟩ := readLoop_run [p0, p1]
  have hlen : (List.take 999 [p0, p1]).length = 2 := rfl
  rw [hlen] at e hc
  have c0 : P.cell 0 = some p0 := hc 0 (by omega)
  have c1 : P.cell 1 = some p1 := hc 1 (by omega)
  have hlt : ¬ (2 : ℕ) < 2 := by omega
  simp only [calculateHistoricalVolatility, e, if_neg hlt,
    logReturnLoop_fault P _ 2 _ p0 p1 (by omega) hP c0 c1 hbad, bind, Except.bind]

theorem calculateHistoricalVolatility_few (src : List ℝ) (h : src.length < 2) :
    calculateHistoricalVolatility (some src) = ⟨.ok (-1), [.atLeast2PricesRequired]⟩ := by
  obtain ⟨P, e, -, -⟩ := readLoop_run src
  have hlt : (src.take 999).length < 2 := by
    rw [List.length_take]; omega
  simp only [calculateHistoricalVolatility, e, if_pos hlt]
  norm_num

theorem ratio_of_pos (ps : List ℝ) (hpos : ∀ x ∈ ps, 0 < x) :
    ∀ i, 1 ≤ i → i < ps.length →
      ps.getD (i - 1) 0 ≠ 0 ∧ 0 < ps.getD i 0 / ps.getD (i - 1) 0 := by
  intro i h1 hi
  have hi1 : i - 1 < ps.length := by omega
  have a : 0 < ps.getD i 0 := by
    rw [List.getD_eq_getElem ps 0 hi]
    exact hpos _ (List.getElem_mem hi)
  have b : 0 < ps.getD (i - 1) 0 := by
    rw [List.getD_eq_getElem ps 0 hi1]
    exact hpos _ (List.getElem_mem hi1)
  exact ⟨ne_of_gt b, div_pos a b⟩

theorem calculateHistoricalVolatility_out (file : Option (List ℝ)) (v : ℝ) :
    Event.optionPrice v ∉ (calculateHistoricalVolatility file).out := by
  unfold calculateHistoricalVolatility
  split
  · simp
  · split
    · simp
    · split <;> simp

theorem main_gate (S K r T : ℝ) (file : Option (List ℝ)) (a k : Int) (v : ℝ)
    (o : List Event) (h : calculateHistoricalVolatility file = ⟨.ok v, o⟩) :
    main S K r T file a k = .ok (1, o ++ [.failedToCalculateVolatility]) ↔ v < 0 := by
  constructor
  · intro hm
    by_contra hv
    simp only [main, h, bind, Except.bind, if_neg hv, pure, Except.pure] at hm
    repeat' split at hm
    all_goals simp at hm
  · intro hv
    simp only [main, h, bind, Except.bind, if_pos hv, pure, Except.pure]

theorem specLogReturn_replicate (m : ℕ) (c : ℝ) (hc : c ≠ 0) (i : ℕ)
    (hi : i ∈ Finset.Icc 1 ((List.replicate m c).length - 1)) :
    specLogReturn (List.replicate m c) i = 0 := by
  rw [Finset.mem_Icc, List.length_replicate] at hi
  have h1 : i < m := by omega
  have h2 : i - 1 < m := by omega
  have g1 : (List.replicate m c).getD i 0 = c := by
    rw [List.getD_eq_getElem?_getD, List.getElem?_replicate_of_lt h1]
    rfl
  have g2 : (List.replicate m c).getD (i - 1) 0 = c := by
    rw [List.getD_eq_getElem?_getD, List.getElem?_replicate_of_lt h2]
    rfl
  rw [specLogReturn, g1, g2, div_self hc, Real.log_one]

theorem specVolatility_replicate (m : ℕ) (c : ℝ) (hc : c ≠ 0) :
    specVolatility (List.replicate m c) = 0 := by
  have hm : specMean (List.replicate m c) = 0 := by
    rw [specMean, Finset.sum_eq_zero (specLogReturn_replicate m c hc), zero_div]
  have hv : specVariance (List.replicate m c) = 0 := by
    rw [specVariance, Finset.sum_eq_zero, zero_div]
    intro i hi
    rw [specLogReturn_replicate m c hc i hi, hm]
    norm_num
  rw [specVolatility, hv, Real.sqrt_zero, zero_mul]

/-! ## Facts about the normal distribution functions -/

theorem cdfApprox_divisor_pos (x : ℝ) : (0 : ℝ) < 1.0 + 0.2316419 * |x| := by
  have h := abs_nonneg x
  norm_num
  positivity

theorem sqrt_two_pi_lower : (2.50662838 : ℝ) < Real.sqrt (2.0 * pi) := by
  rw [Real.lt_sqrt (by norm_num)]
  norm_num [pi]

theorem sqrt_two_pi_upper : Real.sqrt (2.0 * pi) < (2.50662839 : ℝ) := by
  rw [Real.sqrt_lt' (by norm_num)]
  norm_num [pi]

theorem cdfApprox_zero :
    cdfApprox 0 = 1 - 1.253314136 / Real.sqrt (2.0 * pi) := by
  simp only [cdfApprox, nPrime]
  norm_num
  ring

theorem cdfApprox_zero_lower : (0.5 : ℝ) + 2.15e-8 < cdfApprox 0 := by
  have hl := sqrt_two_pi_lower
  have hpos : (0 : ℝ) < Real.sqrt (2.0 * pi) := by linarith
  have h : (1.253314136 : ℝ) / Real.sqrt (2.0 * pi) < 0.5 - 2.15e-8 := by
    rw [div_lt_iff₀ hpos]
    nlinarith
  rw [cdfApprox_zero]
  linarith

theorem cdfApprox_zero_upper : cdfApprox 0 < (0.5 : ℝ) + 2.36e-8 := by
  have hl := sqrt_two_pi_lower
  have hu := sqrt_two_pi_upper
  have hpos : (0 : ℝ) < Real.sqrt (2.0 * pi) := by linarith
  have h : (0.5 : ℝ) - 2.36e-8 < 1.253314136 / Real.sqrt (2.0 * pi) := by
    rw [lt_div_iff₀ hpos]
    nlinarith
  rw [cdfApprox_zero]
  linarith

theorem cdfApprox_neg_of_pos (x : ℝ) (hx : 0 < x) : cdfApprox (-x) = 1 - cdfApprox x := by
  have h1 : -x < 0 := by linarith
  have h2 : ¬ x < 0 := by linarith
  have h3 : (-0.5 : ℝ) * (-x) * (-x) = -0.5 * x * x := by ring
  simp only [cdfApprox, nPrime, abs_neg, h3]
  norm_num [h1, h2]

theorem cdfApprox_add_neg (x : ℝ) (hx : x ≠ 0) : cdfApprox x + cdfApprox (-x) = 1 := by
  rcases lt_or_gt_of_ne hx with h | h
  · have := cdfApprox_neg_of_pos (-x) (by linarith)
    rw [neg_neg] at this
    linarith
  · have := cdfApprox_neg_of_pos x h
    linarith

/-! ## Facts about `d1`, `d2` and the pricing functions -/

theorem d1_ok (S K r T σ : ℝ) (hK : K ≠ 0) (hq : 0 < S / K) (hT : 0 ≤ T)
    (hs : σ * Real.sqrt T ≠ 0) :
    d1 S K r T σ
      = .ok ((Real.log (S / K) + (r + 0.5 * σ ^ 2) * T) / (σ * Real.sqrt T)) := by
  simp only [d1, fdiv, flog, fsqrt, bind, Except.bind, if_neg hK, if_pos hq, if_pos hT,
    if_neg hs]

theorem d2_ok (S K r T σ : ℝ) (hK : K ≠ 0) (hq : 0 < S / K) (hT : 0 ≤ T)
    (hs : σ * Real.sqrt T ≠ 0) :
    d2 S K r T σ
      = .ok ((Real.log (S / K) + (r + 0.5 * σ ^ 2) * T) / (σ * Real.sqrt T)
          - σ * Real.sqrt T) := by
  simp only [d2, d1_ok S K r T σ hK hq hT hs, fsqrt, bind, Except.bind, if_pos hT, pure,
    Except.pure]

theorem optionCalculator_call (S K r T σ a b : ℝ) (h1 : d1 S K r T σ = .ok a)
    (h2 : d2 S K r T σ = .ok b) :
    optionCalculator S K r T σ 1
      = ⟨.ok (S * cdfApprox a - K * Real.exp (-r * T) * cdfApprox b), []⟩ := by
  simp only [optionCalculator, h1, h2, bind, Except.bind, pure, Except.pure, if_true]

theorem optionCalculator_put (S K r T σ a b : ℝ) (h1 : d1 S K r T σ = .ok a)
    (h2 : d2 S K r T σ = .ok b) :
    optionCalculator S K r T σ 2
      = ⟨.ok (K * Real.exp (-r * T) * cdfApprox (-b) - S * cdfApprox (-a)), []⟩ := by
  have h : ¬ ((2 : Int) = 1) := by decide
  simp only [optionCalculator, h1, h2, bind, Except.bind, pure, Except.pure, if_neg h,
    if_true]

theorem optionCalculator_other (S K r T σ : ℝ) (k : Int) (h1 : k ≠ 1) (h2 : k ≠ 2) :
    optionCalculator S K r T σ k = ⟨.ok (-1), [.invalidOptionChoice]⟩ := by
  simp only [optionCalculator, if_neg h1, if_neg h2]

theorem greekAnalysis_ok (S K r T σ a b : ℝ) (h1 : d1 S K r T σ = .ok a)
    (h2 : d2 S K r T σ = .ok b) (hT : 0 ≤ T) (hS : S ≠ 0) (hs : σ * Real.sqrt T ≠ 0) :
    ∃ g, greekAnalysis S K r T σ = .ok g ∧ g.deltaCall = cdfApprox a
      ∧ g.deltaPut = cdfApprox a - 1 := by
  have hσ : σ ≠ 0 := left_ne_zero_of_mul hs
  have hq : Real.sqrt T ≠ 0 := right_ne_zero_of_mul hs
  have hg : S * σ * Real.sqrt T ≠ 0 := mul_ne_zero (mul_ne_zero hS hσ) hq
  have hd : (2.0 : ℝ) * Real.sqrt T ≠ 0 := mul_ne_zero (by norm_num) hq
  simp only [greekAnalysis, h1, h2, fsqrt, fdiv, bind, Except.bind, pure, Except.pure,
    if_pos hT, if_neg hg, if_neg hd]
  refine ⟨_, rfl, rfl, ?_⟩
  norm_num

theorem valid_defined (S K T σ : ℝ) (hS : 0 < S) (hK : 0 < K) (hT : 0 < T) (hσ : 0 < σ) :
    K ≠ 0 ∧ 0 < S / K ∧ 0 ≤ T ∧ σ * Real.sqrt T ≠ 0 ∧ S ≠ 0 :=
  ⟨ne_of_gt hK, div_pos hS hK, le_of_lt hT,
    mul_ne_zero (ne_of_gt hσ) (ne_of_gt (Real.sqrt_pos.mpr hT)), ne_of_gt hS⟩

theorem d1_small_spot_inputs : d1 10 10 (-0.125) 1 0.5 = .ok 0 := by
  rw [d1_ok 10 10 (-0.125) 1 0.5 (by norm_num) (by norm_num) (by norm_num)
    (by rw [Real.sqrt_one]; norm_num)]
  rw [Real.sqrt_one, div_self (by norm_num : (10 : ℝ) ≠ 0), Real.log_one]
  norm_num

theorem main_zero_volatility (S K r T : ℝ) (k : Int) (h1 : k ≠ 1) (h2 : k ≠ 2) :
    main S K r T (some [100, 100, 100, 100]) 0 k = .ok (0, [.invalidOptionChoice]) := by
  have hpos : ∀ x ∈ (List.replicate 4 (100 : ℝ)).take 999, 0 < x := by
    intro x hx
    rw [List.eq_of_mem_replicate (List.mem_of_mem_take hx)]
    norm_num
  have hv : calculateHistoricalVolatility (some [100, 100, 100, 100]) = ⟨.ok 0, []⟩ := by
    have h := calculateHistoricalVolatility_ok (List.replicate 4 (100 : ℝ)) (by simp)
      (ratio_of_pos _ hpos)
    rw [List.take_replicate, specVolatility_replicate _ 100 (by norm_num)] at h
    exact h
  have hneg : ¬ ((-1 : ℝ) ≥ 0) := by norm_num
  have ha : ¬ ((0 : Int) = 1) := by decide
  simp only [main, hv, optionCalculator_other _ _ _ _ _ k h1 h2, bind, Except.bind, pure,
    Except.pure, lt_irrefl, if_false, if_neg ha, if_neg hneg, List.nil_append]

/-! ## Symmetry of the CDF approximation -/

/-- C1 (amended): for every real `x ≠ 0` the sum `cdfApprox x + cdfApprox (-x)` is within
`1e-9` of 1 (it is exactly 1), and for every real `x`, `0` included, it is within `1e-7`
of 1. -/
theorem cdfApprox_symmetry (x : ℝ) :
    (x ≠ 0 → |cdfApprox x + cdfApprox (-x) - 1| ≤ 1e-9) ∧
      |cdfApprox x + cdfApprox (-x) - 1| ≤ 1e-7 := by
  by_cases hx : x = 0
  · subst hx
    have hl := cdfApprox_zero_lower
    have hu := cdfApprox_zero_upper
    refine ⟨fun h => absurd rfl h, ?_⟩
    rw [neg_zero, abs_le]
    constructor <;> norm_num at hl hu ⊢ <;> linarith
  · have h := cdfApprox_add_neg x hx
    rw [h]
    norm_num

/-- C1, instance at `x = 1`. -/
theorem cdfApprox_symmetry_witness :
    ((1 : ℝ) ≠ 0 → |cdfApprox 1 + cdfApprox (-1) - 1| ≤ 1e-9) ∧
      |cdfApprox 1 + cdfApprox (-1) - 1| ≤ 1e-7 :=
  cdfApprox_symmetry 1

/-- C1 fails at `x = 0`: both calls take the `cnd` branch and the sum is off 1 by more
than `4e-8`, hence by more than `1e-9`. -/
theorem cdfApprox_symmetry_fails_at_zero :
    (1e-9 : ℝ) < |cdfApprox 0 + cdfApprox (-0) - 1| ∧
      (4e-8 : ℝ) < cdfApprox 0 + cdfApprox (-0) - 1 := by
  have hl := cdfApprox_zero_lower
  have h : (4e-8 : ℝ) < cdfApprox 0 + cdfApprox (-0) - 1 := by
    rw [neg_zero]
    norm_num at hl ⊢
    linarith
  have h0 : (0 : ℝ) < cdfApprox 0 + cdfApprox (-0) - 1 := by
    norm_num at h ⊢
    linarith
  refine ⟨?_, h⟩
  rw [abs_of_pos h0]
  norm_num at h ⊢
  linarith

/-! ## The density and the constant `pi` -/

/-- C8, at `x = 0`: `nPrime 0` is below the standard normal density at 0 by more than
`1e-8`, because `pi` is `355/113` and not the circle constant. -/
theorem nPrime_zero_below_density :
    nPrime 0 + 1e-8 < 1 / Real.sqrt (2 * Real.pi) * Real.exp (-(0 : ℝ) ^ 2 / 2) := by
  have hl := sqrt_two_pi_lower
  have hpos : (0 : ℝ) < Real.sqrt (2.0 * pi) := by linarith
  have hpi := Real.pi_lt_d20
  have hpi0 := Real.pi_pos
  have hs : Real.sqrt (2 * Real.pi) < 2.5066282747 := by
    rw [Real.sqrt_lt' (by norm_num)]
    norm_num at hpi ⊢
    linarith
  have hs0 : 0 < Real.sqrt (2 * Real.pi) := Real.sqrt_pos.mpr (by linarith)
  have e1 : nPrime 0 = 1 / Real.sqrt (2.0 * pi) := by
    unfold nPrime
    rw [show (-0.5 : ℝ) * 0 * 0 = 0 by ring, Real.exp_zero, mul_one]
    norm_num
  have e2 : Real.exp (-(0 : ℝ) ^ 2 / 2) = 1 := by norm_num
  have h1 : nPrime 0 < 1 / 2.50662838 := by
    rw [e1]
    exact one_div_lt_one_div_of_lt (by norm_num) hl
  have h2 : (1 : ℝ) / 2.5066282747 < 1 / Real.sqrt (2 * Real.pi) :=
    one_div_lt_one_div_of_lt hs0 hs
  have h3 : (1 : ℝ) / 2.50662838 + 1e-8 < 1 / 2.5066282747 := by norm_num
  rw [e2, mul_one]
  linarith

/-! ## Put-call parity -/

/-- C7: for every valid input (spot, strike, time, volatility > 0) `greekAnalysis`
produces its values and `deltaCall - deltaPut = 1` exactly. -/
theorem delta_call_minus_delta_put (S K r T σ : ℝ) (hS : 0 < S) (hK : 0 < K) (hT : 0 < T)
    (hσ : 0 < σ) :
    ∃ g, greekAnalysis S K r T σ = .ok g ∧ g.deltaCall - g.deltaPut = 1 := by
  obtain ⟨hK0, hq, hT0, hs, hS0⟩ := valid_defined S K T σ hS hK hT hσ
  obtain ⟨g, hg, hc, hp⟩ := greekAnalysis_ok S K r T σ _ _ (d1_ok S K r T σ hK0 hq hT0 hs)
    (d2_ok S K r T σ hK0 hq hT0 hs) hT0 hS0 hs
  exact ⟨g, hg, by rw [hc, hp]; ring⟩

/-- C7, at spot 100, strike 100, rate 0.05, time 1, volatility 0.2. -/
theorem delta_call_minus_delta_put_witness :
    ∃ g, greekAnalysis 100 100 0.05 1 0.2 = .ok g ∧ g.deltaCall - g.deltaPut = 1 :=
  delta_call_minus_delta_put 100 100 0.05 1 0.2 (by norm_num) (by norm_num) (by norm_num)
    (by norm_num)

/-! ## Option kind -/

/-- C3 (amended): for every `optChoice` outside {1, 2} and any market inputs,
`optionCalculator` prints "Invalid option choice." and returns the number `-1`; whenever
`main` completes with such a choice, its output holds no option price. -/
theorem invalid_option_choice (S K r T σ : ℝ) (k : Int) (h1 : k ≠ 1) (h2 : k ≠ 2) :
    optionCalculator S K r T σ k = ⟨.ok (-1), [.invalidOptionChoice]⟩
      ∧ ∀ (S0 K0 r0 T0 : ℝ) (file : Option (List ℝ)) (a code : Int) (out : List Event),
          main S0 K0 r0 T0 file a k = .ok (code, out) →
            ∀ v, Event.optionPrice v ∉ out := by
  refine ⟨optionCalculator_other S K r T σ k h1 h2, ?_⟩
  intro S0 K0 r0 T0 file a code out hm v hin
  have hvol := calculateHistoricalVolatility_out file v
  have hneg : ¬ ((-1 : ℝ) ≥ 0) := by norm_num
  simp only [main, optionCalculator_other _ _ _ _ _ k h1 h2, bind, Except.bind, pure,
    Except.pure, if_neg hneg] at hm
  repeat' split at hm
  all_goals simp only [Except.ok.injEq, Prod.mk.injEq, reduceCtorEq] at hm
  all_goals obtain ⟨-, rfl⟩ := hm
  all_goals simp [hvol] at hin

/-- C3, at `optChoice = 3` with spot 100, strike 100, rate 0.05, time 1, volatility 0.2. -/
theorem invalid_option_choice_witness :
    optionCalculator 100 100 0.05 1 0.2 3 = ⟨.ok (-1), [.invalidOptionChoice]⟩
      ∧ ∀ (S0 K0 r0 T0 : ℝ) (file : Option (List ℝ)) (a code : Int) (out : List Event),
          main S0 K0 r0 T0 file a 3 = .ok (code, out) →
            ∀ v, Event.optionPrice v ∉ out :=
  invalid_option_choice 100 100 0.05 1 0.2 3 (by decide) (by decide)

/-- C3 fails at `optChoice = 3`: the caller receives the number `-1`, a value of the same
type as a price, not an error. -/
theorem invalid_option_choice_returns_number :
    (optionCalculator 100 100 0.05 1 0.2 3).val = .ok (-1) := by
  rw [optionCalculator_other 100 100 0.05 1 0.2 3 (by decide) (by decide)]

/-! ## Too few prices -/

/-- C4: for every price series with fewer than 2 elements, `calculateHistoricalVolatility`
takes the insufficient-data exit: it prints "Error: At least 2 prices required.", returns
the failure value `-1` without computing a volatility, and `main` stops with status 1. -/
theorem too_few_prices (src : List ℝ) (h : src.length < 2) :
    calculateHistoricalVolatility (some src) = ⟨.ok (-1), [.atLeast2PricesRequired]⟩
      ∧ ∀ (S K r T : ℝ) (a k : Int), main S K r T (some src) a k
          = .ok (1, [.atLeast2PricesRequired, .failedToCalculateVolatility]) := by
  have e := calculateHistoricalVolatility_few src h
  refine ⟨e, fun S K r T a k => ?_⟩
  exact (main_gate S K r T (some src) a k (-1) _ e).mpr (by norm_num)

/-- C4, at the series `[100]`. -/
theorem too_few_prices_witness :
    calculateHistoricalVolatility (some [100]) = ⟨.ok (-1), [.atLeast2PricesRequired]⟩
      ∧ ∀ (S K r T : ℝ) (a k : Int), main S K r T (some [100]) a k
          = .ok (1, [.atLeast2PricesRequired, .failedToCalculateVolatility]) :=
  too_few_prices [100] (by simp)

/-- C4, at the empty series. -/
theorem too_few_prices_empty :
    calculateHistoricalVolatility (some []) = ⟨.ok (-1), [.atLeast2PricesRequired]⟩ :=
  calculateHistoricalVolatility_few [] (by simp)

/-! ## Exactly two prices -/

/-- C5 (amended): for every price series of exactly 2 prices,
`calculateHistoricalVolatility` returns no finite volatility and does not reject the input:
the `n < 2` guard does not fire, nothing is printed, the failure value `-1` is not returned,
and the result is a non-finite double (the divisor `n - 2` is 0). -/
theorem two_prices_not_rejected (p0 p1 : ℝ) :
    calculateHistoricalVolatility (some [p0, p1]) = ⟨.error .nonFinite, []⟩ := by
  by_cases h0 : p0 = 0
  · exact calculateHistoricalVolatility_two_fault p0 p1 (Or.inl h0)
  · by_cases hq : 0 < p1 / p0
    · refine calculateHistoricalVolatility_two [p0, p1] rfl ?_
      intro i h1 hi
      have hi2 : i < 2 := hi
      have hi1 : i = 1 := by omega
      subst hi1
      exact ⟨h0, hq⟩
    · exact calculateHistoricalVolatility_two_fault p0 p1 (Or.inr hq)

/-- C5 fails at the series `[100, 105]`: no error is reported (the output is empty) and
the value handed back is not an error but a non-finite double. -/
theorem two_prices_no_error_reported :
    (calculateHistoricalVolatility (some [100, 105])).out = []
      ∧ (calculateHistoricalVolatility (some [100, 105])).val = .error .nonFinite := by
  have h : calculateHistoricalVolatility (some [100, 105]) = ⟨.error .nonFinite, []⟩ := by
    refine calculateHistoricalVolatility_two [100, 105] rfl ?_
    intro i h1 hi
    have hi2 : i < 2 := hi
    have hi1 : i = 1 := by omega
    subst hi1
    exact ⟨by norm_num, by norm_num⟩
  rw [h]
  exact ⟨rfl, rfl⟩

/-! ## Domain of the pricing functions -/

/-- C6 (amended): `optionCalculator` (kind 1 or 2) and `greekAnalysis` make no domain
check. Whenever the arithmetic is defined (strike ≠ 0, spot/strike > 0, time ≥ 0 and
volatility·sqrt(time) ≠ 0, which admits a negative volatility) they produce numeric
results and report no error; and `main` stops on the volatility exactly when it is
negative, so a volatility of 0 goes on to the pricing code. -/
theorem no_domain_check (S K r T σ : ℝ) (k : Int) (hk : k = 1 ∨ k = 2) (hK : K ≠ 0)
    (hq : 0 < S / K) (hT : 0 ≤ T) (hs : σ * Real.sqrt T ≠ 0) :
    (∃ v, optionCalculator S K r T σ k = ⟨.ok v, []⟩)
      ∧ (∃ g, greekAnalysis S K r T σ = .ok g)
      ∧ ∀ (file : Option (List ℝ)) (vol : ℝ) (o : List Event) (a : Int),
          calculateHistoricalVolatility file = ⟨.ok vol, o⟩ →
            (main S K r T file a k = .ok (1, o ++ [.failedToCalculateVolatility])
              ↔ vol < 0) := by
  have e1 := d1_ok S K r T σ hK hq hT hs
  have e2 := d2_ok S K r T σ hK hq hT hs
  have hS : S ≠ 0 := by
    intro h
    rw [h, zero_div] at hq
    exact lt_irrefl _ hq
  refine ⟨?_, ?_, fun file vol o a h => main_gate S K r T file a k vol o h⟩
  · rcases hk with rfl | rfl
    · exact ⟨_, optionCalculator_call S K r T σ _ _ e1 e2⟩
    · exact ⟨_, optionCalculator_put S K r T σ _ _ e1 e2⟩
  · obtain ⟨g, hg, -, -⟩ := greekAnalysis_ok S K r T σ _ _ e1 e2 hT hS hs
    exact ⟨g, hg⟩

/-- C6, at a negative volatility: spot 100, strike 100, rate 0.05, time 1,
volatility -0.3, kind 2. -/
theorem no_domain_check_witness :
    (∃ v, optionCalculator 100 100 0.05 1 (-0.3) 2 = ⟨.ok v, []⟩)
      ∧ (∃ g, greekAnalysis 100 100 0.05 1 (-0.3) = .ok g)
      ∧ ∀ (file : Option (List ℝ)) (vol : ℝ) (o : List Event) (a : Int),
          calculateHistoricalVolatility file = ⟨.ok vol, o⟩ →
            (main 100 100 0.05 1 file a 2 = .ok (1, o ++ [.failedToCalculateVolatility])
              ↔ vol < 0) :=
  no_domain_check 100 100 0.05 1 (-0.3) 2 (Or.inr rfl) (by norm_num) (by norm_num)
    (by norm_num) (by rw [Real.sqrt_one]; norm_num)

/-- C6 fails at volatility -0.2 (spot 100, strike 100, rate 0.05, time 1, kind 1):
`optionCalculator` reports no error and returns the number given by the call formula at
`d1 = -0.35`, `d2 = -0.15`. -/
theorem negative_volatility_priced :
    optionCalculator 100 100 0.05 1 (-0.2) 1
      = ⟨.ok (100 * cdfApprox (-0.35) - 100 * Real.exp (-0.05 * 1) * cdfApprox (-0.15)),
          []⟩ := by
  have hs : (-0.2 : ℝ) * Real.sqrt 1 ≠ 0 := by rw [Real.sqrt_one]; norm_num
  have e1 : d1 100 100 0.05 1 (-0.2) = .ok (-0.35) := by
    rw [d1_ok 100 100 0.05 1 (-0.2) (by norm_num) (by norm_num) (by norm_num) hs]
    rw [Real.sqrt_one, div_self (by norm_num : (100 : ℝ) ≠ 0), Real.log_one]
    norm_num
  have e2 : d2 100 100 0.05 1 (-0.2) = .ok (-0.15) := by
    rw [d2_ok 100 100 0.05 1 (-0.2) (by norm_num) (by norm_num) (by norm_num) hs]
    rw [Real.sqrt_one, div_self (by norm_num : (100 : ℝ) ≠ 0), Real.log_one]
    norm_num
  exact optionCalculator_call 100 100 0.05 1 (-0.2) _ _ e1 e2

/-! ## The estimator against its reference definition -/

/-- C9: for every price series of `n ≥ 3` positive prices (the usable prices of the file,
its first 999 numbers), `calculateHistoricalVolatility` returns
`sqrt(Σ_{i=1..n-1} (r_i - m)² / (n - 2)) * sqrt(252)`, with `r_i = ln(price[i]/price[i-1])`
and `m` the mean of the `n - 1` log-returns, and prints nothing. -/
theorem estimator_matches_reference (src : List ℝ) (h3 : 3 ≤ (src.take 999).length)
    (hpos : ∀ x ∈ src.take 999, 0 < x) :
    calculateHistoricalVolatility (some src)
      = ⟨.ok (specVolatility (src.take 999)), []⟩ :=
  calculateHistoricalVolatility_ok src h3 (ratio_of_pos (src.take 999) hpos)

/-- C9, at the series `[100, 105, 102, 110, 108, 115]`. -/
theorem estimator_matches_reference_witness :
    calculateHistoricalVolatility (some [100, 105, 102, 110, 108, 115])
      = ⟨.ok (specVolatility [100, 105, 102, 110, 108, 115]), []⟩ :=
  estimator_matches_reference [100, 105, 102, 110, 108, 115] (by simp)
    (by
      intro x hx
      simp only [List.take, List.mem_cons, List.mem_singleton, List.not_mem_nil,
        or_false] at hx
      rcases hx with h | h | h | h | h | h <;> rw [h] <;> norm_num)

/-- C10: for every constant series of positive prices of length `n ≥ 3`,
`calculateHistoricalVolatility` returns exactly 0. -/
theorem constant_series_zero (n : ℕ) (c : ℝ) (hn : 3 ≤ n) (hc : 0 < c) :
    calculateHistoricalVolatility (some (List.replicate n c)) = ⟨.ok 0, []⟩ := by
  have h3 : 3 ≤ ((List.replicate n c).take 999).length := by
    rw [List.length_take, List.length_replicate]; omega
  have hpos : ∀ x ∈ (List.replicate n c).take 999, 0 < x := by
    intro x hx
    rw [List.eq_of_mem_replicate (List.mem_of_mem_take hx)]
    exact hc
  rw [calculateHistoricalVolatility_ok _ h3 (ratio_of_pos _ hpos), List.take_replicate,
    specVolatility_replicate _ c (ne_of_gt hc)]

/-- C10, at the series `[100, 100, 100, 100]`. -/
theorem constant_series_zero_witness :
    calculateHistoricalVolatility (some [100, 100, 100, 100]) = ⟨.ok 0, []⟩ :=
  constant_series_zero 4 100 (by norm_num) (by norm_num)

/-! ## The CDF approximation at 0 -/

/-- C12: `cdfApprox 0` differs from 0.5 by less than `1e-6` (with the constants of the
code, `pi = 355/113` included). -/
theorem cdfApprox_zero_near_half : |cdfApprox 0 - 0.5| < 1e-6 := by
  have hl := cdfApprox_zero_lower
  have hu := cdfApprox_zero_upper
  rw [abs_lt]
  constructor <;> norm_num at hl hu ⊢ <;> linarith

/-! ## Evenness of the density -/

/-- C14: for every real `x`, `nPrime x = nPrime (-x)` exactly. -/
theorem nPrime_even (x : ℝ) : nPrime x = nPrime (-x) := by
  unfold nPrime
  rw [show (-0.5 : ℝ) * (-x) * (-x) = -0.5 * x * x by ring]

/-! ## Exact parity and exact reflection -/

/-- C16: for every valid input (spot, strike, time, volatility > 0, any rate) for which
neither `d1` nor `d2` is 0, the call price minus the put price equals
`spot - strike * exp(-rate * time)` exactly. -/
theorem put_call_parity_exact (S K r T σ : ℝ) (hS : 0 < S) (hK : 0 < K) (hT : 0 < T)
    (hσ : 0 < σ) (h1 : d1 S K r T σ ≠ .ok 0) (h2 : d2 S K r T σ ≠ .ok 0) :
    ∃ c p, optionCalculator S K r T σ 1 = ⟨.ok c, []⟩
      ∧ optionCalculator S K r T σ 2 = ⟨.ok p, []⟩
      ∧ c - p = S - K * Real.exp (-r * T) := by
  obtain ⟨hK0, hq, hT0, hs, _⟩ := valid_defined S K T σ hS hK hT hσ
  have e1 := d1_ok S K r T σ hK0 hq hT0 hs
  have e2 := d2_ok S K r T σ hK0 hq hT0 hs
  have ha : (Real.log (S / K) + (r + 0.5 * σ ^ 2) * T) / (σ * Real.sqrt T) ≠ 0 :=
    fun h => h1 (by rw [e1, h])
  have hb : (Real.log (S / K) + (r + 0.5 * σ ^ 2) * T) / (σ * Real.sqrt T)
      - σ * Real.sqrt T ≠ 0 := fun h => h2 (by rw [e2, h])
  have s1 := cdfApprox_add_neg _ ha
  have s2 := cdfApprox_add_neg _ hb
  refine ⟨_, _, optionCalculator_call S K r T σ _ _ e1 e2,
    optionCalculator_put S K r T σ _ _ e1 e2, ?_⟩
  linear_combination S * s1 - K * Real.exp (-r * T) * s2

/-- C16, at spot 50, strike 50, rate 0.1, time 1, volatility 0.4 (where `d1 = 0.45` and
`d2 = 0.05`). -/
theorem put_call_parity_exact_witness :
    ∃ c p, optionCalculator 50 50 0.1 1 0.4 1 = ⟨.ok c, []⟩
      ∧ optionCalculator 50 50 0.1 1 0.4 2 = ⟨.ok p, []⟩
      ∧ c - p = 50 - 50 * Real.exp (-0.1 * 1) :=
  put_call_parity_exact 50 50 0.1 1 0.4 (by norm_num) (by norm_num) (by norm_num)
    (by norm_num)
    (by
      rw [d1_ok 50 50 0.1 1 0.4 (by norm_num) (by norm_num) (by norm_num)
        (by rw [Real.sqrt_one]; norm_num)]
      rw [Real.sqrt_one, div_self (by norm_num : (50 : ℝ) ≠ 0), Real.log_one]
      intro h
      injection h with h
      norm_num at h)
    (by
      rw [d2_ok 50 50 0.1 1 0.4 (by norm_num) (by norm_num) (by norm_num)
        (by rw [Real.sqrt_one]; norm_num)]
      rw [Real.sqrt_one, div_self (by norm_num : (50 : ℝ) ≠ 0), Real.log_one]
      intro h
      injection h with h
      norm_num at h)

/-- C17: for every real `x ≠ 0`, `cdfApprox x + cdfApprox (-x) = 1` exactly, and exactly
one of the two calls takes the `x < 0.0` branch (`1 - cnd`); at 0 neither call does. -/
theorem cdfApprox_reflection (x : ℝ) (hx : x ≠ 0) :
    cdfApprox x + cdfApprox (-x) = 1
      ∧ (x < 0.0 ∨ -x < 0.0) ∧ ¬ (x < 0.0 ∧ -x < 0.0)
      ∧ (¬ ((0 : ℝ) < 0.0) ∧ ¬ (-(0 : ℝ) < 0.0)) := by
  have z : (0.0 : ℝ) = 0 := by norm_num
  rw [z]
  refine ⟨cdfApprox_add_neg x hx, ?_, ?_, ?_⟩
  · rcases lt_or_gt_of_ne hx with h | h
    · exact Or.inl h
    · exact Or.inr (by linarith)
  · rintro ⟨h1, h2⟩
    linarith
  · constructor <;> norm_num

/-- C17, at `x = 2`. -/
theorem cdfApprox_reflection_witness :
    cdfApprox 2 + cdfApprox (-2) = 1
      ∧ ((2 : ℝ) < 0.0 ∨ -(2 : ℝ) < 0.0) ∧ ¬ ((2 : ℝ) < 0.0 ∧ -(2 : ℝ) < 0.0)
      ∧ (¬ ((0 : ℝ) < 0.0) ∧ ¬ (-(0 : ℝ) < 0.0)) :=
  cdfApprox_reflection 2 (by norm_num)

/-! ## Valid inputs keep every operation defined -/

/-- C13: for every valid input (spot, strike, time, volatility > 0, any real rate) the
pricing and Greeks computations are defined: the logarithm argument is positive, the
square-root argument is non-negative, every divisor is non-zero, and `d1`, `d2`,
`optionCalculator` (kinds 1 and 2) and `greekAnalysis` all yield real values. -/
theorem valid_inputs_defined (S K r T σ : ℝ) (hS : 0 < S) (hK : 0 < K) (hT : 0 < T)
    (hσ : 0 < σ) :
    (0 < S / K ∧ 0 ≤ T ∧ 0 ≤ (2.0 : ℝ) * pi)
      ∧ (K ≠ 0 ∧ σ * Real.sqrt T ≠ 0 ∧ S * σ * Real.sqrt T ≠ 0
          ∧ 2.0 * Real.sqrt T ≠ 0 ∧ Real.sqrt (2.0 * pi) ≠ 0
          ∧ ∀ x : ℝ, 1.0 + 0.2316419 * |x| ≠ 0)
      ∧ (∃ a b, d1 S K r T σ = .ok a ∧ d2 S K r T σ = .ok b)
      ∧ (∃ c p, optionCalculator S K r T σ 1 = ⟨.ok c, []⟩
          ∧ optionCalculator S K r T σ 2 = ⟨.ok p, []⟩)
      ∧ ∃ g, greekAnalysis S K r T σ = .ok g := by
  obtain ⟨hK0, hq, hT0, hs, hS0⟩ := valid_defined S K T σ hS hK hT hσ
  have e1 := d1_ok S K r T σ hK0 hq hT0 hs
  have e2 := d2_ok S K r T σ hK0 hq hT0 hs
  have hsq : Real.sqrt T ≠ 0 := right_ne_zero_of_mul hs
  have hpi : (0 : ℝ) ≤ 2.0 * pi := by norm_num [pi]
  have hl := sqrt_two_pi_lower
  obtain ⟨g, hg, -, -⟩ := greekAnalysis_ok S K r T σ _ _ e1 e2 hT0 hS0 hs
  refine ⟨⟨hq, hT0, hpi⟩, ⟨hK0, hs, mul_ne_zero (mul_ne_zero hS0 (ne_of_gt hσ)) hsq,
    mul_ne_zero (by norm_num) hsq, ?_, fun x => ne_of_gt (cdfApprox_divisor_pos x)⟩,
    ⟨_, _, e1, e2⟩, ⟨_, _, optionCalculator_call S K r T σ _ _ e1 e2,
      optionCalculator_put S K r T σ _ _ e1 e2⟩, ⟨g, hg⟩⟩
  intro h
  rw [h] at hl
  norm_num at hl

/-- C13, at spot 120, strike 100, rate 0.02, time 2, volatility 0.3. -/
theorem valid_inputs_defined_witness :
    (0 < (120 : ℝ) / 100 ∧ 0 ≤ (2 : ℝ) ∧ 0 ≤ (2.0 : ℝ) * pi)
      ∧ ((100 : ℝ) ≠ 0 ∧ (0.3 : ℝ) * Real.sqrt 2 ≠ 0 ∧ (120 : ℝ) * 0.3 * Real.sqrt 2 ≠ 0
          ∧ 2.0 * Real.sqrt 2 ≠ 0 ∧ Real.sqrt (2.0 * pi) ≠ 0
          ∧ ∀ x : ℝ, 1.0 + 0.2316419 * |x| ≠ 0)
      ∧ (∃ a b, d1 120 100 0.02 2 0.3 = .ok a ∧ d2 120 100 0.02 2 0.3 = .ok b)
      ∧ (∃ c p, optionCalculator 120 100 0.02 2 0.3 1 = ⟨.ok c, []⟩
          ∧ optionCalculator 120 100 0.02 2 0.3 2 = ⟨.ok p, []⟩)
      ∧ ∃ g, greekAnalysis 120 100 0.02 2 0.3 = .ok g :=
  valid_inputs_defined 120 100 0.02 2 0.3 (by norm_num) (by norm_num) (by norm_num)
    (by norm_num)

/-! ## Sign of the estimate -/

theorem specLogReturn_scale (ps : List ℝ) (c : ℝ) (hc : c ≠ 0) (i : ℕ) :
    specLogReturn (ps.map (fun x => c * x)) i = specLogReturn ps i := by
  have g : ∀ k, (ps.map (fun x => c * x)).getD k 0 = c * ps.getD k 0 := by
    intro k
    have h := List.getD_map (l := ps) (d := (0 : ℝ)) (n := k) (fun x => c * x)
    simp only [mul_zero] at h
    exact h
  rw [specLogReturn, specLogReturn, g, g, mul_div_mul_left _ _ hc]

theorem specVolatility_scale (ps : List ℝ) (c : ℝ) (hc : c ≠ 0) :
    specVolatility (ps.map (fun x => c * x)) = specVolatility ps := by
  have hm : specMean (ps.map (fun x => c * x)) = specMean ps := by
    simp only [specMean, List.length_map, specLogReturn_scale ps c hc]
  simp only [specVolatility, specVariance, List.length_map, specLogReturn_scale ps c hc, hm]

/-- C20: for every series of `n ≥ 3` positive prices and every constant `c > 0`,
`calculateHistoricalVolatility` on the series with every price multiplied by `c` returns
the same real value as on the original series. -/
theorem scale_invariance (src : List ℝ) (c : ℝ) (h3 : 3 ≤ (src.take 999).length)
    (hpos : ∀ x ∈ src.take 999, 0 < x) (hc : 0 < c) :
    calculateHistoricalVolatility (some (src.map (fun x => c * x)))
        = calculateHistoricalVolatility (some src)
      ∧ ∃ v, calculateHistoricalVolatility (some src) = ⟨.ok v, []⟩ := by
  have ht : (src.map (fun x => c * x)).take 999 = (src.take 999).map (fun x => c * x) :=
    (List.map_take (fun x => c * x) src 999).symm
  have h3c : 3 ≤ ((src.map (fun x => c * x)).take 999).length := by
    rw [ht, List.length_map]
    exact h3
  have hposc : ∀ x ∈ (src.map (fun x => c * x)).take 999, 0 < x := by
    intro x hx
    rw [ht, List.mem_map] at hx
    obtain ⟨y, hy, rfl⟩ := hx
    exact mul_pos hc (hpos y hy)
  have e := calculateHistoricalVolatility_ok src h3 (ratio_of_pos _ hpos)
  refine ⟨?_, _, e⟩
  rw [e, calculateHistoricalVolatility_ok _ h3c (ratio_of_pos _ hposc), ht,
    specVolatility_scale _ c (ne_of_gt hc)]

/-- C20, at the series `[100, 105, 102]` and `c = 2`. -/
theorem scale_invariance_witness :
    calculateHistoricalVolatility (some ([100, 105, 102].map (fun x => 2 * x)))
        = calculateHistoricalVolatility (some [100, 105, 102])
      ∧ ∃ v, calculateHistoricalVolatility (some [100, 105, 102]) = ⟨.ok v, []⟩ :=
  scale_invariance [100, 105, 102] 2 (by simp)
    (by
      intro x hx
      simp only [List.take, List.mem_cons, List.mem_singleton, List.not_mem_nil,
        or_false] at hx
      rcases hx with h | h | h <;> rw [h] <;> norm_num)
    (by norm_num)

/-! ## Array bounds -/

theorem logReturnLoop_safe (P : Arr ℝ) (n : ℕ) (hP : P.size = 1000) (hn : n ≤ 1000)
    (hc : ∀ i, i < n → ∃ v, P.cell i = some v) :
    ∀ (k i : ℕ) (L : Arr ℝ) (s : ℝ), n - i = k → 1 ≤ i → i ≤ n → L.size = 999 →
      (∀ j, j + 1 < i → ∃ v, L.cell j = some v) →
      logReturnLoop P n i L s = .error .nonFinite
        ∨ ∃ L1 s1, logReturnLoop P n i L s = .ok (L1, s1) ∧ L1.size = 999
            ∧ ∀ j, j + 1 < n → ∃ v, L1.cell j = some v := by
  intro k
  induction k with
  | zero =>
    intro i L s hk h1 h2 hL hcL
    have hin : i = n := by omega
    subst hin
    refine Or.inr ⟨L, s, ?_, hL, hcL⟩
    rw [logReturnLoop]
    simp only [lt_irrefl, if_false, pure, Except.pure]
  | succ k ih =>
    intro i L s hk h1 h2 hL hcL
    have hi : i < n := by omega
    obtain ⟨cur, hcur⟩ := hc i hi
    obtain ⟨prev, hprev⟩ := hc (i - 1) (by omega)
    have r1 : P.read i = .ok cur := by
      simp only [Arr.read, hP, if_pos (show i < 1000 by omega), hcur]
    have r2 : P.read (i - 1) = .ok prev := by
      simp only [Arr.read, hP, if_pos (show i - 1 < 1000 by omega), hprev]
    by_cases h0 : prev = 0
    · left
      rw [logReturnLoop]
      simp only [if_pos hi, r1, r2, fdiv, if_pos h0, bind, Except.bind]
    · by_cases hq : 0 < cur / prev
      · have w : L.write (i - 1) (Real.log (cur / prev))
            = .ok ⟨L.size, Function.update L.cell (i - 1)
                (some (Real.log (cur / prev)))⟩ := by
          simp only [Arr.write, hL, if_pos (show i - 1 < 999 by omega)]
        have r3 : (⟨L.size, Function.update L.cell (i - 1)
            (some (Real.log (cur / prev)))⟩ : Arr ℝ).read (i - 1)
            = .ok (Real.log (cur / prev)) := by
          simp only [Arr.read, hL, if_pos (show i - 1 < 999 by omega),
            Function.update_same]
        have step : logReturnLoop P n i L s
            = logReturnLoop P n (i + 1) ⟨L.size, Function.update L.cell (i - 1)
                (some (Real.log (cur / prev)))⟩ (s + Real.log (cur / prev)) := by
          rw [logReturnLoop]
          simp only [if_pos hi, r1, r2, fdiv, flog, if_neg h0, if_pos hq, w, r3, bind,
            Except.bind]
        rw [step]
        refine ih (i + 1) _ _ (by omega) (by omega) (by omega) hL ?_
        intro j hj
        by_cases hji : j = i - 1
        · exact ⟨Real.log (cur / prev), by rw [hji]; exact Function.update_same _ _ _⟩
        · obtain ⟨v, hv⟩ := hcL j (by omega)
          exact ⟨v, by
            show Function.update L.cell (i - 1) _ j = some v
            rw [Function.update_noteq hji, hv]⟩
      · left
        rw [logReturnLoop]
        simp only [if_pos hi, r1, r2, fdiv, flog, if_neg h0, if_neg hq, bind, Except.bind]

theorem varianceLoop_safe (L : Arr ℝ) (m : ℝ) (n : ℕ) (hL : L.size = 999) (hn : n ≤ 1000)
    (hc : ∀ j, j + 1 < n → ∃ v, L.cell j = some v) :
    ∀ (k i : ℕ) (v : ℝ), n - 1 - i = k → ∃ w, varianceLoop L m n i v = .ok w := by
  intro k
  induction k with
  | zero =>
    intro i v hk
    have hlt : ¬ i < n - 1 := by omega
    refine ⟨v, ?_⟩
    rw [varianceLoop]
    simp only [if_neg hlt, pure, Except.pure]
  | succ k ih =>
    intro i v hk
    have hlt : i < n - 1 := by omega
    obtain ⟨r, hr⟩ := hc i (by omega)
    have r1 : L.read i = .ok r := by
      simp only [Arr.read, hL, if_pos (show i < 999 by omega), hr]
    obtain ⟨w, hw⟩ := ih (i + 1) (v + (r - m) ^ 2) (by omega)
    refine ⟨w, ?_⟩
    rw [varianceLoop]
    simp only [if_pos hlt, r1, bind, Except.bind, hw]

theorem calculateHistoricalVolatility_safe (src : List ℝ) :
    (calculateHistoricalVolatility (some src)).val = .error .nonFinite
      ∨ ∃ v, (calculateHistoricalVolatility (some src)).val = .ok v := by
  obtain ⟨P, e, hP, hc⟩ := readLoop_run src
  have hn : (src.take 999).length ≤ 1000 := by
    rw [List.length_take]; omega
  by_cases hlt : (src.take 999).length < 2
  · right
    simp only [calculateHistoricalVolatility, e, if_pos hlt]
    exact ⟨_, rfl⟩
  · rcases logReturnLoop_safe P (src.take 999).length hP hn (fun i hi => ⟨_, hc i hi⟩)
      ((src.take 999).length - 1) 1 (Arr.alloc 999) 0.0 rfl (le_refl 1) (by omega) rfl
      (fun j hj => by omega) with h | ⟨L, s, h, hL, hcL⟩
    · left
      simp only [calculateHistoricalVolatility, e, if_neg hlt, h, bind, Except.bind]
    · have hd1 : (((src.take 999).length - 1 : ℕ) : ℝ) ≠ 0 :=
        Nat.cast_ne_zero.mpr (by omega)
      obtain ⟨w, hw⟩ := varianceLoop_safe L (s / (((src.take 999).length - 1 : ℕ) : ℝ))
        (src.take 999).length hL hn hcL ((src.take 999).length - 1 - 0) 0 0.0 rfl
      simp only [calculateHistoricalVolatility, e, if_neg hlt, h, bind, Except.bind, fdiv,
        if_neg hd1, hw, fsqrt, pure, Except.pure]
      by_cases hd2 : (((src.take 999).length - 2 : ℕ) : ℝ) = 0
      · left
        simp only [if_pos hd2]
      · by_cases hv : 0 ≤ w / (((src.take 999).length - 2 : ℕ) : ℝ)
        · right
          simp only [if_neg hd2, if_pos hv]
          exact ⟨_, rfl⟩
        · left
          simp only [if_neg hd2, if_neg hv]

/-- C15: for an input source holding `m` leading parseable numbers, the read loop ends
with `n = min(m, 999)` and `prices[0..n-1]` holding the first `n` numbers in order, without
leaving the 1000 cells of `prices`; every index the two later loops use is within
`prices` (size 1000) and, for `logReturns` (size 999), at most 997; and the function never
makes an out-of-bounds access or reads an uninitialised cell. -/
theorem read_loop_bounds (src : List ℝ) :
    (∃ P, readLoop src (Arr.alloc 1000) 0 = .ok (P, min src.length 999) ∧ P.size = 1000
        ∧ ∀ i, i < min src.length 999 → P.cell i = src[i]?)
      ∧ (∀ i, 1 ≤ i → i < min src.length 999 → i < 1000 ∧ i - 1 < 1000 ∧ i - 1 ≤ 997)
      ∧ (∀ i, i < min src.length 999 - 1 → i ≤ 997)
      ∧ (calculateHistoricalVolatility (some src)).val ≠ .error .outOfBounds
      ∧ (calculateHistoricalVolatility (some src)).val ≠ .error .uninitialised := by
  refine ⟨?_, fun i h1 h2 => by omega, fun i h => by omega, ?_, ?_⟩
  · obtain ⟨P, e, hP, -, hcell⟩ := readLoop_spec src (Arr.alloc 1000) 0 rfl (by omega)
    rw [Nat.zero_add] at e hcell
    exact ⟨P, e, hP, fun i hi => by rw [hcell i (Nat.zero_le i) hi, Nat.sub_zero]⟩
  · rcases calculateHistoricalVolatility_safe src with h | ⟨v, h⟩ <;> rw [h] <;> simp
  · rcases calculateHistoricalVolatility_safe src with h | ⟨v, h⟩ <;> rw [h] <;> simp

/-- C15, at a source of 1500 numbers: the loop stops with `n = 999`. -/
theorem read_loop_bounds_witness :
    ∃ P, readLoop (List.replicate 1500 (1 : ℝ)) (Arr.alloc 1000) 0 = .ok (P, 999)
      ∧ P.size = 1000 := by
  obtain ⟨⟨P, e, hP, -⟩, -⟩ := read_loop_bounds (List.replicate 1500 (1 : ℝ))
  rw [List.length_replicate] at e
  exact ⟨P, e, hP⟩

/-! ## Range and monotonicity of the CDF approximation -/

end BlackScholes
